import Mathlib

/-!
Verification of the core numerical kernels of the `stranger` package
(`src/functions.cpp`): the stage-transition engine (`transition` with its
helpers `rbinom_trans` / `rmultinom_trans`), the reproduction aggregator
(`reproduce`), the dispersal kernel (`disperse` with `rbinom_disp` /
`rmultinom_disp`), and the simulation loop (`sim`).

Embedding conventions.

* Armadillo matrices and cubes are embedded as total functions from
  natural-number indices to rationals, with the dimension fields that drive
  every loop bound in the source passed as explicit arguments.  C++ `double`
  arithmetic is modelled exactly over `ℚ` (every quantity the kernels
  manipulate stays rational), and `int` counts over `ℤ`.  Index expressions
  are kept exactly as in the source; inputs instantiated in the theorems
  below always respect the bounds Armadillo would check at run time.
* The implementation-defined sampling of `std::binomial_distribution` is an
  explicit functional parameter of type `Draw`, receiving the trial count,
  the success probability, and the engine state, exactly the data the C++
  helpers hand to the distribution.  Division by a zero denominator, which
  in the C++ produces a NaN/infinite probability handed to the
  distribution, is the total `ℚ` division (result `0`) handed to the
  abstract draw; no theorem below depends on the value drawn in that case.
* `std::default_random_engine` objects are passed *by value* throughout the
  C++ (`rbinom_trans`, `rmultinom_trans`, `rbinom_disp`, `rmultinom_disp`
  all copy the engine, and `transition`'s `++seed` mutates a by-value
  parameter that is never read again).  The embedding reproduces this copy
  semantics faithfully: the helpers receive the engine state and do not
  return it.
-/

namespace Stranger

/-- A spatial matrix (`arma::mat`): entry at row `x`, column `y`. -/
abbrev GMat := ℕ → ℕ → ℚ

/-- An integer matrix (`arma::imat`). -/
abbrev GMatZ := ℕ → ℕ → ℤ

/-- A cube (`arma::cube`): entry at row `x`, column `y`, slice `t`. -/
abbrev GCube := ℕ → ℕ → ℕ → ℚ

/-- An integer cube (`arma::icube`). -/
abbrev GCubeZ := ℕ → ℕ → ℕ → ℤ

/-- Truncation of a `double` toward zero, as in a C++ `double`→`int`
conversion (`arma::conv_to<arma::imat>`, and the implicit narrowing of
`S(a, b)` at the `rmultinom_disp` call site). -/
def truncQ (q : ℚ) : ℤ := if 0 ≤ q then ⌊q⌋ else -⌊-q⌋

/-- Sum of the `m × n` leading block of a matrix (`arma::accu` on an
`m × n` matrix). -/
def sumGrid (m n : ℕ) (M : GMat) : ℚ :=
  ∑ x ∈ Finset.range m, ∑ y ∈ Finset.range n, M x y

/-- Sum of the `m × n` leading block of an integer matrix. -/
def sumGridZ (m n : ℕ) (M : GMatZ) : ℤ :=
  ∑ x ∈ Finset.range m, ∑ y ∈ Finset.range n, M x y

/-- The sampling behaviour of `std::binomial_distribution<>` together with
the generator: given the trial count, the success probability, and the
engine state, produce the sampled value and the advanced engine state.
The standard leaves the algorithm implementation-defined, so the
development is parametric in it. -/
abbrev Draw := ℤ → ℚ → ℕ → ℕ × ℕ

/-- Construction `std::default_random_engine gen(seed)`: libstdc++'s
`default_random_engine` is `minstd_rand0`, whose seeding reduces the seed
modulo the Mersenne prime 2147483647 and replaces a zero state by 1. -/
def seedEngine (seed : ℤ) : ℕ :=
  let s := (seed % 2147483647).toNat
  if s = 0 then 1 else s

/-- The element order of a linear `for(i = 0; i < n_elem; ++i)` loop over an
`nx × ny` Armadillo matrix: column-major, rows fastest. -/
def cellsColMajor (nx ny : ℕ) : List (ℕ × ℕ) :=
  (List.range ny).flatMap (fun b => (List.range nx).map (fun a => (a, b)))

/-- The cell order of the nested row loop `for a { for b { ... } }` used by
`disperse` (functions.cpp lines 208-209). -/
def cellsRowMajor (nx ny : ℕ) : List (ℕ × ℕ) :=
  (List.range nx).flatMap (fun a => (List.range ny).map (fun b => (a, b)))

/-- `rbinom_trans` (functions.cpp lines 7-16): elementwise binomial draws
over a matrix, one draw per element in column-major order, threading the
(by-value, locally owned) engine copy through the elements.  Only the
matrix of draws is returned — the caller's engine is unchanged, exactly as
in the C++ where `gen` is a value parameter.  `rbinomStep` is the loop
body `y(i) = binomial_distribution(n(i), p(i))(gen)` of lines 11-14. -/
def rbinomStep (draw : Draw) (n : GMatZ) (p : GMat) (st : GMatZ × ℕ) (ab : ℕ × ℕ) :
    GMatZ × ℕ :=
  let d := draw (n ab.1 ab.2) (p ab.1 ab.2) st.2
  (fun x y => if x = ab.1 ∧ y = ab.2 then (d.1 : ℤ) else st.1 x y, d.2)

/-- The full `rbinom_trans` loop over the elements (functions.cpp
lines 10-15). -/
def rbinom_trans (draw : Draw) (nx ny : ℕ) (n : GMatZ) (p : GMat) (g : ℕ) : GMatZ :=
  ((cellsColMajor nx ny).foldl (rbinomStep draw n p) ((fun _ _ => (0 : ℤ)), g)).1

/-- The mortality layer `m = 1 - sum(probs, 2)` of `rmultinom_trans`
(functions.cpp line 26). -/
def mortMat (nsN : ℕ) (probs : GCube) : GMat :=
  fun x y => 1 - ∑ t ∈ Finset.range nsN, probs x y t

/-- `sum(probs.slices(i, probs.n_slices - 1), 2)` (functions.cpp line 30):
the probability mass of slice `i` and all later slices. -/
def pTail (nsN i : ℕ) (probs : GCube) : GMat :=
  fun x y => ∑ j ∈ Finset.Ico i nsN, probs x y j

/-- The conditioned success probability `probs.slice(i) / (p + m)` handed to
`rbinom_trans` for slice `i` (functions.cpp line 31). -/
def prbSlice (nsN i : ℕ) (probs : GCube) : GMat :=
  fun x y => probs x y i / (pTail nsN i probs x y + mortMat nsN probs x y)

/-- One allocation step of `rmultinom_trans`:
`min(rbinom_trans(u, probs.slice(i) / (p + m), gen), u)` (line 31).  Note
that `gen` here is the *initial* engine state of the enclosing
`rmultinom_trans` call for every slice, because `rbinom_trans` takes the
engine by value. -/
def yOfU (draw : Draw) (nx ny nsN : ℕ) (probs : GCube) (g : ℕ) (u : GMatZ) (i : ℕ) : GMatZ :=
  fun x y => min (rbinom_trans draw nx ny u (prbSlice nsN i probs) g x y) (u x y)

/-- The unallocated pool `u` of `rmultinom_trans` before processing slice
`i`: `u` starts as the truncated population (line 23/27) and each slice's
allocation is subtracted (line 32). -/
def uSeq (draw : Draw) (nx ny nsN : ℕ) (pop : GMat) (probs : GCube) (g : ℕ) : ℕ → GMatZ
  | 0 => fun x y => truncQ (pop x y)
  | i + 1 => fun x y =>
      uSeq draw nx ny nsN pop probs g i x y -
        yOfU draw nx ny nsN probs g (uSeq draw nx ny nsN pop probs g i) i x y

/-- `rmultinom_trans` (functions.cpp lines 19-36): sequential multinomial
allocation of a source-class population across the target slices.  Slice
`t` of the returned `icube` is the allocation drawn when the unallocated
pool had already been reduced by slices `0, …, t-1`. -/
def rmultinom_trans (draw : Draw) (nx ny nsN : ℕ) (pop : GMat) (probs : GCube) (g : ℕ) :
    GCubeZ :=
  fun x y t =>
    if t < nsN then
      yOfU draw nx ny nsN probs g (uSeq draw nx ny nsN pop probs g t) t x y
    else 0

/-- The raw probability layer `p.slice(t)` for source class `s` after the
construction loop of `transition` (functions.cpp lines 66-98): zero when
`t` is outside the target loop (`p` is zero-filled, line 68) or when the
skip test `alpha(t,s) + accu(beta.tube(t,s)) + accu(gamma.tube(t,s)) == 0`
fires (lines 73-77), and otherwise intercept plus density plus
environmental terms (lines 80-96; the `m != 0` guards skip adding an
all-zero matrix). -/
def probRaw (nsN ne aR : ℕ) (N E : GCube) (alpha : GMat) (beta gamma : GCube) (s : ℕ) :
    GCube :=
  fun x y t =>
    if t < aR ∧
        ¬(alpha t s + (∑ d ∈ Finset.range nsN, beta t s d) +
            (∑ e ∈ Finset.range ne, gamma t s e) = 0) then
      alpha t s + (∑ d ∈ Finset.range nsN, if beta t s d = 0 then 0 else N x y d * beta t s d)
        + (∑ e ∈ Finset.range ne, if gamma t s e = 0 then 0 else E x y e * gamma t s e)
    else 0

/-- `p = clamp(p, 0, 1)` (functions.cpp line 101). -/
def probClamped (nsN ne aR : ℕ) (N E : GCube) (alpha : GMat) (beta gamma : GCube) (s : ℕ) :
    GCube :=
  fun x y t => min 1 (max 0 (probRaw nsN ne aR N E alpha beta gamma s x y t))

/-- `psum = sum(p, 2)` (functions.cpp line 102): per-cell total over all
`nsN` slices of the clamped cube. -/
def probSum (nsN ne aR : ℕ) (N E : GCube) (alpha : GMat) (beta gamma : GCube) (s : ℕ) :
    GMat :=
  fun x y => ∑ t ∈ Finset.range nsN, probClamped nsN ne aR N E alpha beta gamma s x y t

/-- The transition-probability field for source class `s` after the joint
renormalization loop (functions.cpp lines 103-109): where the per-cell sum
exceeds 1, the whole tube is divided by it. -/
def probField (nsN ne aR : ℕ) (N E : GCube) (alpha : GMat) (beta gamma : GCube) (s : ℕ) :
    GCube :=
  fun x y t =>
    if 1 < probSum nsN ne aR N E alpha beta gamma s x y then
      probClamped nsN ne aR N E alpha beta gamma s x y t /
        probSum nsN ne aR N E alpha beta gamma s x y
    else probClamped nsN ne aR N E alpha beta gamma s x y t

/-- `transition` (functions.cpp lines 52-124).  Loop bounds exactly as in
the source: sources `s < alpha.n_cols = aC`, targets `t < alpha.n_rows = aR`,
density modifiers `d < N.n_slices = nsN`, environment variables
`e < E.n_slices = ne`; the output cube has `nsN` slices like `N`.  In
stochastic mode each source class's `rmultinom_trans` call receives the
engine state freshly seeded from `seed` (the engine is passed by value and
the post-call `++seed` has no effect); in deterministic mode slice `t` of
the output accumulates `N.slice(s) % p.slice(t)` over the source classes. -/
def transition (draw : Draw) (nx ny nsN ne aR aC : ℕ) (N E : GCube) (alpha : GMat)
    (beta gamma : GCube) (rand : Bool) (seed : ℤ) : GCube :=
  if rand then
    fun x y t =>
      ∑ s ∈ Finset.range aC,
        ((rmultinom_trans draw nx ny nsN (fun a b => N a b s)
            (probField nsN ne aR N E alpha beta gamma s) (seedEngine seed) x y t : ℤ) : ℚ)
  else
    fun x y t =>
      if t < aR then
        ∑ s ∈ Finset.range aC,
          N x y s * probField nsN ne aR N E alpha beta gamma s x y t
      else 0

/-- `reproduce` (functions.cpp lines 134-146): per-cell fecundity-weighted
population total, skipping zero-fecundity classes. -/
def reproduce (nsN : ℕ) (N : GCube) (f : ℕ → ℚ) : GMat :=
  fun x y => ∑ i ∈ Finset.range nsN, if f i = 0 then 0 else N x y i * f i

/-- `rbinom_disp` (functions.cpp lines 152-157): a single binomial draw;
the engine is again a by-value copy, so only the sampled value is
returned. -/
def rbinom_disp (draw : Draw) (n : ℤ) (p : ℚ) (g : ℕ) : ℤ :=
  ((draw n p g).1 : ℤ)

/-- The loop of `rmultinom_disp` (functions.cpp lines 170-179) over the
remaining visit order `l`: at each visited cell `ii`, the still-unvisited
probability mass is `accu(probs)` (visited entries have been zeroed), the
allocation is a capped binomial draw, the draw is subtracted from the
unallocated pool, the loop breaks when the pool reaches zero, and the
visited entry of `probs` is zeroed.  `acc` is the output matrix `y`
(zero-initialised at line 165). -/
def rmultinomDispGo (draw : Draw) (kr kc : ℕ) (g : ℕ) :
    List (ℕ × ℕ) → GMat → ℤ → GMatZ → GMatZ
  | [], _, _, acc => acc
  | ii :: rest, probs, u, acc =>
      let p := sumGrid kr kc probs
      let v := min (rbinom_disp draw u (probs ii.1 ii.2 / p) g) u
      let acc2 : GMatZ := fun x y => if x = ii.1 ∧ y = ii.2 then v else acc x y
      if u - v = 0 then acc2
      else
        rmultinomDispGo draw kr kc g rest
          (fun x y => if x = ii.1 ∧ y = ii.2 then 0 else probs x y) (u - v) acc2

/-- `rmultinom_disp` (functions.cpp lines 160-182): sequential allocation
of an (already integer-truncated) seed count across the kernel cells in
the visit order `ind`. -/
def rmultinom_disp (draw : Draw) (kr kc : ℕ) (seeds : ℤ) (probs : GMat)
    (ind : List (ℕ × ℕ)) (g : ℕ) : GMatZ :=
  rmultinomDispGo draw kr kc g ind probs seeds (fun _ _ => 0)

/-- Stable insertion of a cell into a list ordered by descending kernel
weight. -/
def insertDesc (K : GMat) (c : ℕ × ℕ) : List (ℕ × ℕ) → List (ℕ × ℕ)
  | [] => [c]
  | d :: rest => if K d.1 d.2 < K c.1 c.2 then c :: d :: rest else d :: insertDesc K c rest

/-- `arma::sort_index(N, "descent")` (functions.cpp line 203): the kernel
cells ordered by descending weight.  Armadillo leaves the relative order
of equal weights unspecified; the embedding fixes the stable order on the
column-major enumeration.  No theorem below depends on this tie order. -/
def sortIndexDesc (kr kc : ℕ) (K : GMat) : List (ℕ × ℕ) :=
  (cellsColMajor kr kc).foldr (insertDesc K) []

/-- `T.row(tgt) = T.row(tgt) + T.row(src)`. -/
def rowAdd (tgt src : ℕ) (T : GMat) : GMat :=
  fun x y => if x = tgt then T x y + T src y else T x y

/-- `T.col(tgt) = T.col(tgt) + T.col(src)`. -/
def colAdd (tgt src : ℕ) (T : GMat) : GMat :=
  fun x y => if y = tgt then T x y + T x src else T x y

/-- One iteration of the reflecting-boundary fold of `disperse`
(functions.cpp lines 225-232), in source order: top row fold, left column
fold, bottom row fold, right column fold.  `R`/`C` are the padded grid's
row/column counts `T.n_rows`/`T.n_cols`. -/
def reflectStep (R C r i : ℕ) (T : GMat) : GMat :=
  colAdd (C - (2 * r - 1 - i) - 1) (C - 1 - i)
    (rowAdd (R - (2 * r - 1 - i) - 1) (R - 1 - i)
      (colAdd (2 * r - 1 - i) i
        (rowAdd (2 * r - 1 - i) i T)))

/-- The reflecting fold `for(i = 0; i < r; ++i)` (functions.cpp line 225),
run from iteration `i` with `fuel` iterations remaining. -/
def reflectFrom (R C r : ℕ) : ℕ → ℕ → GMat → GMat
  | _, 0, T => T
  | i, fuel + 1, T => reflectFrom R C r (i + 1) fuel (reflectStep R C r i T)

/-- The window written by one source cell in deterministic mode:
`S(a, b) * N` (functions.cpp line 218). -/
def detWindow (S K : GMat) (a b : ℕ) : GMat :=
  fun i j => S a b * K i j

/-- The spreading loop of `disperse` (functions.cpp lines 208-222): each
source cell `(a, b)` adds its allocation window into the padded grid
`T.submat(a, b, a + 2r, b + 2r)`.  In stochastic mode the window is the
sequential allocation of the truncated seed count (`S(a, b)` narrowed to
`int`), drawn from the engine state `g` — the same freshly seeded state
for every cell, since `rmultinom_disp` takes the engine by value. -/
def spreadStep (draw : Draw) (kr kc r : ℕ) (S K : GMat) (Ni : List (ℕ × ℕ))
    (rand : Bool) (g : ℕ) (T : GMat) (ab : ℕ × ℕ) : GMat :=
  let add : GMat :=
    if rand then
      fun i j => ((rmultinom_disp draw kr kc (truncQ (S ab.1 ab.2)) K Ni g i j : ℤ) : ℚ)
    else detWindow S K ab.1 ab.2
  fun x y =>
    if ab.1 ≤ x ∧ x ≤ ab.1 + 2 * r ∧ ab.2 ≤ y ∧ y ≤ ab.2 + 2 * r then
      T x y + add (x - ab.1) (y - ab.2)
    else T x y

/-- `disperse` (functions.cpp lines 195-236): spread every source cell's
seeds into a zero-padded grid of radius `r = (K.n_rows - 1) / 2`, fold the
border layers back in when `reflect` is set, and return the interior
submatrix `T.submat(r, r, nr + r - 1, nc + r - 1)`. -/
def disperse (draw : Draw) (nr nc kr kc : ℕ) (S K : GMat) (reflect rand : Bool)
    (seed : ℤ) : GMat :=
  let g := seedEngine seed
  let Ni := sortIndexDesc kr kc K
  let r := (kr - 1) / 2
  let T1 := (cellsRowMajor nr nc).foldl (spreadStep draw kr kc r S K Ni rand g)
    (fun _ _ => 0)
  let T2 := if reflect then reflectFrom (nr + 2 * r) (nc + 2 * r) r 0 r T1 else T1
  fun x y => T2 (x + r) (y + r)

/-- The transition-kernel seed `seed * i` that `sim` derives for step `i`
(functions.cpp line 276). -/
def transSeed (seed : ℤ) (i : ℕ) : ℤ := seed * i

/-- The dispersal-kernel seed `seed * i + 1` that `sim` derives for step
`i` (functions.cpp line 277). -/
def dispSeed (seed : ℤ) (i : ℕ) : ℤ := seed * i + 1

/-- The environment index `ei(i)` of `sim` (functions.cpp lines 267-270):
step `i` when the environment list is time-varying, 0 when it has a single
shared layer. -/
def envIdx (envLen i : ℕ) : ℕ := if 1 < envLen then i else 0

/-- One step of the simulation loop (functions.cpp lines 275-278):
transition with the step-derived seed, then add the dispersed reproductive
output into class slice 0. -/
def simStep (draw : Draw) (nx ny nsN ne aR aC kr kc : ℕ) (env : List GCube)
    (alpha : GMat) (beta gamma : GCube) (fecundity : ℕ → ℚ) (nb : GMat)
    (reflect rand : Bool) (seed : ℤ) (N : GCube) (i : ℕ) : GCube :=
  let N1 := transition draw nx ny nsN ne aR aC N
    (env.getD (envIdx env.length i) (fun _ _ _ => 0)) alpha beta gamma rand
    (transSeed seed i)
  fun x y t =>
    if t = 0 then
      N1 x y 0 +
        disperse draw nx ny kr kc (reproduce nsN N1 fecundity) nb reflect rand
          (dispSeed seed i) x y
    else N1 x y t

/-- The population state after `k` simulation steps. -/
def simN (draw : Draw) (nx ny nsN ne aR aC kr kc : ℕ) (env : List GCube)
    (alpha : GMat) (beta gamma : GCube) (fecundity : ℕ → ℚ) (nb : GMat)
    (reflect rand : Bool) (seed : ℤ) (N0 : GCube) : ℕ → GCube
  | 0 => N0
  | k + 1 =>
      simStep draw nx ny nsN ne aR aC kr kc env alpha beta gamma fecundity nb
        reflect rand seed
        (simN draw nx ny nsN ne aR aC kr kc env alpha beta gamma fecundity nb
          reflect rand seed N0 k) k

/-- `sim` (functions.cpp lines 254-282): the recorded trajectory cube,
slice `k` holding the recorded class after `k` steps (slice 0 the initial
state, line 273). -/
def sim (draw : Draw) (nx ny nsN ne aR aC kr kc : ℕ) (N0 : GCube) (env : List GCube)
    (alpha : GMat) (beta gamma : GCube) (fecundity : ℕ → ℚ) (nb : GMat)
    (reflect rand : Bool) (seed : ℤ) (record : ℕ) (nsteps : ℕ) : GCube :=
  fun x y k =>
    if k ≤ nsteps then
      simN draw nx ny nsN ne aR aC kr kc env alpha beta gamma fecundity nb
        reflect rand seed N0 k x y record
    else 0

/-! ### Specification-side comparison definitions

The definitions in this section do not translate `functions.cpp`; each
follows the wording of the specification for the behaviour a claim
attributes to the code, so that it can be compared with the translated
definitions above. -/

/-- Modelled from the spec: the raw probability layer computed *without*
the zero-effect skip — every `(t, s)` pair's layer is computed from
intercept, density, and environment terms ("must be semantically
equivalent to computing a uniformly-zero probability layer"). -/
def probRawNoSkip (nsN ne aR : ℕ) (N E : GCube) (alpha : GMat) (beta gamma : GCube)
    (s : ℕ) : GCube :=
  fun x y t =>
    if t < aR then
      alpha t s + (∑ d ∈ Finset.range nsN, if beta t s d = 0 then 0 else N x y d * beta t s d)
        + (∑ e ∈ Finset.range ne, if gamma t s e = 0 then 0 else E x y e * gamma t s e)
    else 0

/-- Clamping applied to the no-skip raw layers. -/
def probClampedNoSkip (nsN ne aR : ℕ) (N E : GCube) (alpha : GMat) (beta gamma : GCube)
    (s : ℕ) : GCube :=
  fun x y t => min 1 (max 0 (probRawNoSkip nsN ne aR N E alpha beta gamma s x y t))

/-- Per-cell clamped total for the no-skip field. -/
def probSumNoSkip (nsN ne aR : ℕ) (N E : GCube) (alpha : GMat) (beta gamma : GCube)
    (s : ℕ) : GMat :=
  fun x y => ∑ t ∈ Finset.range nsN, probClampedNoSkip nsN ne aR N E alpha beta gamma s x y t

/-- Joint renormalization applied to the no-skip field. -/
def probFieldNoSkip (nsN ne aR : ℕ) (N E : GCube) (alpha : GMat) (beta gamma : GCube)
    (s : ℕ) : GCube :=
  fun x y t =>
    if 1 < probSumNoSkip nsN ne aR N E alpha beta gamma s x y then
      probClampedNoSkip nsN ne aR N E alpha beta gamma s x y t /
        probSumNoSkip nsN ne aR N E alpha beta gamma s x y
    else probClampedNoSkip nsN ne aR N E alpha beta gamma s x y t

/-- Modelled from the spec: deterministic `transition` with the skip
removed, i.e. always computing the probability layer.  The claim asserts
this agrees with `transition` for every input. -/
def transitionNoSkipDet (nx ny nsN ne aR aC : ℕ) (N E : GCube) (alpha : GMat)
    (beta gamma : GCube) : GCube :=
  fun x y t =>
    if t < aR then
      ∑ s ∈ Finset.range aC,
        N x y s * probFieldNoSkip nsN ne aR N E alpha beta gamma s x y t
    else 0

/-- Modelled from the spec: `rbinom_trans` with a *shared* generator whose
state each draw advances for every subsequent draw — the matrix of draws is
returned together with the advanced engine state. -/
def rbinomSeq (draw : Draw) (nx ny : ℕ) (n : GMatZ) (p : GMat) (g : ℕ) : GMatZ × ℕ :=
  (cellsColMajor nx ny).foldl (rbinomStep draw n p) ((fun _ _ => (0 : ℤ)), g)

/-- Modelled from the spec: the slice loop of `rmultinom_trans` threading
one shared generator state through the slices. -/
def rmultinomSeqAux (draw : Draw) (nx ny nsN : ℕ) (probs : GCube) :
    List ℕ → GMatZ → ℕ → (ℕ → GMatZ) → ((ℕ → GMatZ) × ℕ)
  | [], _, g, acc => (acc, g)
  | i :: rest, u, g, acc =>
      let rg := rbinomSeq draw nx ny u (prbSlice nsN i probs) g
      let yi : GMatZ := fun x y => min (rg.1 x y) (u x y)
      rmultinomSeqAux draw nx ny nsN probs rest (fun x y => u x y - yi x y) rg.2
        (fun t => if t = i then yi else acc t)

/-- Modelled from the spec: stochastic `transition` with "one shared
stochastic generator instance … seeded once per invocation … and consumed
in a fixed, deterministic cell/target iteration order", its state advancing
across source classes as well. -/
def transitionSeqGen (draw : Draw) (nx ny nsN ne aR aC : ℕ) (N E : GCube) (alpha : GMat)
    (beta gamma : GCube) (seed : ℤ) : GCube :=
  let step := fun (st : (ℕ → ℕ → ℕ → ℤ) × ℕ) (s : ℕ) =>
    let rm := rmultinomSeqAux draw nx ny nsN (probField nsN ne aR N E alpha beta gamma s)
      (List.range nsN)
      (fun x y => truncQ (N x y s)) st.2 (fun _ => fun _ _ => 0)
    ((fun t x y => st.1 t x y + if t < nsN then rm.1 t x y else 0), rm.2)
  let res := (List.range aC).foldl step ((fun _ _ _ => 0), seedEngine seed)
  fun x y t => ((res.1 t x y : ℤ) : ℚ)

/-- Modelled from the spec: the class-axis consistency check the claimed
entry validation would perform — the `alpha` matrix must be square with
the class axis of `N` on both sides. -/
def classAxisConsistent (nsN aR aC : ℕ) : Bool := aR = nsN && aC = nsN

/-! ### Concrete draw functions used in counterexamples and witnesses -/

/-- A concrete state-sensitive draw: value `g % (n + 1)` (zero when the
success probability is zero), advancing the state only when a nonzero
probability is sampled. -/
def drawMod : Draw :=
  fun n p g => if p = 0 then (0, g) else (g % (n.toNat + 1), g + 1)

/-- A concrete draw returning zero and leaving the state unchanged. -/
def drawZero : Draw := fun _ _ g => (0, g)

/-- A concrete draw that is exact at probability one (as any conforming
`std::binomial_distribution` must be) and returns zero otherwise. -/
def drawTop : Draw := fun n p g => (if p = 1 then n.toNat else 0, g)

/-! ### Concrete inputs used by the claim theorems -/

/-- The all-zero cube. -/
def zeroCube : GCube := fun _ _ _ => 0

/-- Scenario population for the 1×1 grid, 3 classes: `[10, 0, 0]`. -/
def N1 : GCube := fun _ _ t => if t = 0 then 10 else 0

/-- Scenario intercepts: only the class 1 → class 2 transition (target
index 1, source index 0) with probability `1/2`. -/
def alpha1 : GMat := fun t s => if t = 1 ∧ s = 0 then 1/2 else 0

/-- Two-class population `[10, 0]` on a 1×1 grid. -/
def N3 : GCube := fun _ _ t => if t = 0 then 10 else 0

/-- Intercept 1 for the (target 1, source 0) pair, zero elsewhere. -/
def alpha3 : GMat := fun t s => if t = 1 ∧ s = 0 then 1 else 0

/-- Density coefficient −1 for (target 1, source 0, modifier 1), zero
elsewhere: it cancels `alpha3`'s intercept in the skip test. -/
def beta3 : GCube := fun t s d => if t = 1 ∧ s = 0 ∧ d = 1 then -1 else 0

/-- Two-class population `[7, 7]` on a 1×1 grid. -/
def N4 : GCube := fun _ _ t => if t < 2 then 7 else 0

/-- Intercepts sending each source class to target 0 with probability
`3/10`. -/
def alpha4 : GMat := fun t _ => if t = 0 then 3/10 else 0

/-- Three-class population `[1, 2, 4]` on a 1×1 grid. -/
def N9 : GCube := fun _ _ t => if t = 0 then 1 else if t = 1 then 2 else if t = 2 then 4 else 0

/-- A 2×2 intercept matrix (too small for the 3 classes of `N9`):
`alpha9 0 0 = 1/2`, zero elsewhere. -/
def alpha9 : GMat := fun t s => if t = 0 ∧ s = 0 then 1/2 else 0

/-- Constant 1×1 seed field with value 3. -/
def S5 : GMat := fun _ _ => 3

/-- A 1×1 kernel whose single weight is 2 (non-negative, square,
odd-sided, but not summing to 1). -/
def K5 : GMat := fun _ _ => 2

/-! ### Evaluation lemmas at the concrete inputs -/

lemma cellsColMajor_one_one : cellsColMajor 1 1 = [(0, 0)] := rfl

lemma seedEngine_three : seedEngine 3 = 3 := by decide

lemma truncQ_seven : truncQ 7 = 7 := by norm_num [truncQ]

lemma probField_alpha4 (s : ℕ) :
    (probField 2 1 2 N4 zeroCube alpha4 zeroCube zeroCube s 0 0 0 = 3/10) ∧
    (probField 2 1 2 N4 zeroCube alpha4 zeroCube zeroCube s 0 0 1 = 0) := by
  norm_num [probField, probSum, probClamped, probRaw, N4, alpha4, zeroCube,
    Finset.sum_range_succ]

lemma transition_scenario_eval :
    (transition drawZero 1 1 3 1 3 3 N1 zeroCube alpha1 zeroCube zeroCube false 1 0 0 0 = 0) ∧
    (transition drawZero 1 1 3 1 3 3 N1 zeroCube alpha1 zeroCube zeroCube false 1 0 0 1 = 5) ∧
    (transition drawZero 1 1 3 1 3 3 N1 zeroCube alpha1 zeroCube zeroCube false 1 0 0 2 = 0) := by
  norm_num [transition, probField, probSum, probClamped, probRaw, N1, alpha1, zeroCube,
    Finset.sum_range_succ]

/-! ### Claim theorems -/

/-- C1: the specified scenario (1×1 grid, 3 classes, `alpha` encoding only
a class 1 → class 2 transition with probability `1/2`, deterministic mode,
population `[10, 0, 0]`) does *not* return `[5, 5, 0]`: the class-1 output
is 0, not 5 — the mortality complement is not retained. -/
theorem c1_scenario_counterexample :
    ¬(transition drawZero 1 1 3 1 3 3 N1 zeroCube alpha1 zeroCube zeroCube false 1 0 0 0 = 5 ∧
      transition drawZero 1 1 3 1 3 3 N1 zeroCube alpha1 zeroCube zeroCube false 1 0 0 1 = 5 ∧
      transition drawZero 1 1 3 1 3 3 N1 zeroCube alpha1 zeroCube zeroCube false 1 0 0 2 = 0) := by
  intro hc
  have h := transition_scenario_eval.1
  rw [h] at hc
  exact absurd hc.1 (by norm_num)

/-- C1 (amended): the scenario returns `[0, 5, 0]` — class 2 receives 5,
and the 5 individuals in the mortality complement of class 1 are removed
from the population rather than retained (retention would require an
explicit `alpha(1,1)` entry). -/
theorem c1_scenario_amended :
    (transition drawZero 1 1 3 1 3 3 N1 zeroCube alpha1 zeroCube zeroCube false 1 0 0 0 = 0) ∧
    (transition drawZero 1 1 3 1 3 3 N1 zeroCube alpha1 zeroCube zeroCube false 1 0 0 1 = 5) ∧
    (transition drawZero 1 1 3 1 3 3 N1 zeroCube alpha1 zeroCube zeroCube false 1 0 0 2 = 0) :=
  transition_scenario_eval

/-- C2: the step seeds `sim` derives (`seed * i` for `transition` and
`seed * i + 1` for `disperse`, functions.cpp lines 276-277) degenerate:
at step 0 the transition seed is 0 for *every* base seed, so the derived
seeds are neither base-seed-dependent nor pairwise distinct across steps
and kernels — e.g. with base seed 1 the step-1 transition seed equals the
step-0 dispersal seed, and the step-0 dispersal seed is 1 for every base
seed. -/
theorem c2_seed_derivation_degenerate :
    (∀ s : ℤ, transSeed s 0 = 0) ∧
    transSeed 1 1 = dispSeed 1 0 ∧
    dispSeed 3 0 = dispSeed 9 0 := by
  refine ⟨fun s => ?_, by norm_num [transSeed, dispSeed], by norm_num [dispSeed]⟩
  simp [transSeed]

/-- C3: the zero-effect skip of `transition` tests whether the *sum* of
the intercept, density, and environment coefficients is zero, not whether
each is zero.  With `alpha(1,0) = 1` and `beta(1,0,1) = -1` the sum
cancels, so the pair is skipped even though its coefficients are nonzero,
and the skip is not semantically equivalent to computing the layer: the
code yields 0 flux into class 2 while the computed layer (probability 1)
would move all 10 individuals. -/
theorem c3_skip_divergence :
    (alpha3 1 0 + (∑ d ∈ Finset.range 2, beta3 1 0 d) +
      (∑ e ∈ Finset.range 1, zeroCube 1 0 e) = 0) ∧
    beta3 1 0 1 ≠ 0 ∧
    transition drawZero 1 1 2 1 2 2 N3 zeroCube alpha3 beta3 zeroCube false 1 0 0 1 = 0 ∧
    transitionNoSkipDet 1 1 2 1 2 2 N3 zeroCube alpha3 beta3 zeroCube 0 0 1 = 10 := by
  refine ⟨by norm_num [alpha3, beta3, zeroCube, Finset.sum_range_succ],
    by norm_num [beta3], ?_, ?_⟩
  · norm_num [transition, probField, probSum, probClamped, probRaw, N3, alpha3, beta3,
      zeroCube, Finset.sum_range_succ]
  · norm_num [transitionNoSkipDet, probFieldNoSkip, probSumNoSkip, probClampedNoSkip,
      probRawNoSkip, N3, alpha3, beta3, zeroCube, Finset.sum_range_succ]

set_option maxHeartbeats 2000000 in
/-- C4: within one stochastic `transition` invocation the generator state
is *not* consumed sequentially across draws: the engine is passed by value,
so every source class's `rmultinom_trans` call starts from the freshly
seeded state.  With the state-sensitive draw `drawMod` and seed 3, the two
identical source classes produce identical draws (total 6 into target 0),
whereas the specification's shared sequentially-advancing generator
(`transitionSeqGen`) produces 7. -/
theorem c4_generator_copy_divergence :
    transition drawMod 1 1 2 1 2 2 N4 zeroCube alpha4 zeroCube zeroCube true 3 0 0 0 = 6 ∧
    transitionSeqGen drawMod 1 1 2 1 2 2 N4 zeroCube alpha4 zeroCube zeroCube 3 0 0 0 = 7 := by
  have h0 := probField_alpha4 0
  have h1 := probField_alpha4 1
  constructor
  · norm_num [transition, Finset.sum_range_succ, rmultinom_trans, uSeq, yOfU, rbinom_trans, rbinomStep,
      prbSlice, pTail, mortMat, seedEngine_three, truncQ_seven, drawMod, cellsColMajor_one_one,
      Finset.sum_Ico_eq_sum_range, h0.1, h0.2, h1.1, h1.2, N4, truncQ, Int.toNat_ofNat]
    have h3 : (3 : ℕ) % (Int.toNat (7 : ℤ) + 1) = 3 := by decide
    norm_num [h3, min_def]
  · norm_num [transitionSeqGen, Finset.sum_range_succ, rmultinomSeqAux, rbinomSeq, rbinomStep,
      prbSlice, pTail, mortMat, seedEngine_three, truncQ_seven, drawMod, cellsColMajor_one_one,
      Finset.sum_Ico_eq_sum_range, h0.1, h0.2, h1.1, h1.2, N4, truncQ, Int.toNat_ofNat,
      List.range_succ]

/-- C9: the kernel entry points perform no shape validation.  With `N`
holding 3 classes but `alpha` only 2×2 (class-axis mismatch), the
deterministic `transition` call does not fail fast: it runs to completion
and returns a definite population cube. -/
theorem c9_no_entry_validation_counterexample :
    classAxisConsistent 3 2 2 = false ∧
    transition drawZero 1 1 3 1 2 2 N9 zeroCube alpha9 zeroCube zeroCube false 1 0 0 0 =
      1/2 := by
  refine ⟨by decide, ?_⟩
  norm_num [transition, probField, probSum, probClamped, probRaw, N9, alpha9, zeroCube,
    Finset.sum_range_succ]

set_option maxHeartbeats 1000000 in
/-- C9 (amended): no entry-point validation exists; the class-axis
mismatch (`alpha` 2×2 against 3 classes in `N`) is silently tolerated —
the call completes, source/target classes beyond `alpha`'s axes are simply
never processed, and the 4 individuals of class 2 vanish from the output
(`[1, 2, 4] ↦ [1/2, 0, 0]`). -/
theorem c9_silent_shape_mismatch :
    classAxisConsistent 3 2 2 = false ∧
    N9 0 0 2 = 4 ∧
    (transition drawZero 1 1 3 1 2 2 N9 zeroCube alpha9 zeroCube zeroCube false 1 0 0 0 = 1/2) ∧
    (transition drawZero 1 1 3 1 2 2 N9 zeroCube alpha9 zeroCube zeroCube false 1 0 0 1 = 0) ∧
    (transition drawZero 1 1 3 1 2 2 N9 zeroCube alpha9 zeroCube zeroCube false 1 0 0 2 = 0) := by
  refine ⟨by decide, by norm_num [N9], ?_, ?_, ?_⟩ <;>
    norm_num [transition, probField, probSum, probClamped, probRaw, N9, alpha9, zeroCube,
      Finset.sum_range_succ]

/-! ### Conservation and probability-bound lemmas -/

lemma truncQ_nonneg {q : ℚ} (h : 0 ≤ q) : 0 ≤ truncQ q := by
  simp only [truncQ, if_pos h]
  exact Int.floor_nonneg.2 h

lemma truncQ_le {q : ℚ} (h : 0 ≤ q) : (truncQ q : ℚ) ≤ q := by
  simp only [truncQ, if_pos h]
  exact Int.floor_le q

lemma rbinom_foldl_nonneg (draw : Draw) (n : GMatZ) (p : GMat) :
    ∀ (l : List (ℕ × ℕ)) (st : GMatZ × ℕ), (∀ a b, 0 ≤ st.1 a b) →
      ∀ x y, 0 ≤ (l.foldl (rbinomStep draw n p) st).1 x y := by
  intro l
  induction l with
  | nil => intro st h x y; exact h x y
  | cons ab rest ih =>
      intro st h x y
      apply ih
      intro a b
      simp only [rbinomStep]
      split
      · exact Int.natCast_nonneg _
      · exact h a b

lemma rbinom_trans_nonneg (draw : Draw) (nx ny : ℕ) (n : GMatZ) (p : GMat) (g : ℕ)
    (x y : ℕ) : 0 ≤ rbinom_trans draw nx ny n p g x y :=
  rbinom_foldl_nonneg draw n p (cellsColMajor nx ny) _ (fun _ _ => le_refl 0) x y

lemma yOfU_le (draw : Draw) (nx ny nsN : ℕ) (probs : GCube) (g : ℕ) (u : GMatZ)
    (i x y : ℕ) : yOfU draw nx ny nsN probs g u i x y ≤ u x y :=
  min_le_right _ _

lemma yOfU_nonneg (draw : Draw) (nx ny nsN : ℕ) (probs : GCube) (g : ℕ) (u : GMatZ)
    (i x y : ℕ) (hu : 0 ≤ u x y) : 0 ≤ yOfU draw nx ny nsN probs g u i x y :=
  le_min (rbinom_trans_nonneg draw nx ny u (prbSlice nsN i probs) g x y) hu

lemma uSeq_nonneg (draw : Draw) (nx ny nsN : ℕ) (pop : GMat) (probs : GCube) (g : ℕ)
    (x y : ℕ) (h : 0 ≤ pop x y) :
    ∀ i, 0 ≤ uSeq draw nx ny nsN pop probs g i x y := by
  intro i
  induction i with
  | zero => exact truncQ_nonneg h
  | succ i ih =>
      have hy := yOfU_le draw nx ny nsN probs g (uSeq draw nx ny nsN pop probs g i) i x y
      simp only [uSeq]
      omega

lemma uSeq_partial_sum (draw : Draw) (nx ny nsN : ℕ) (pop : GMat) (probs : GCube)
    (g : ℕ) (x y : ℕ) :
    ∀ m, (∑ i ∈ Finset.range m,
        yOfU draw nx ny nsN probs g (uSeq draw nx ny nsN pop probs g i) i x y)
      = uSeq draw nx ny nsN pop probs g 0 x y - uSeq draw nx ny nsN pop probs g m x y := by
  intro m
  induction m with
  | zero => simp
  | succ m ih =>
      rw [Finset.sum_range_succ, ih]
      have : uSeq draw nx ny nsN pop probs g (m + 1) x y =
          uSeq draw nx ny nsN pop probs g m x y -
            yOfU draw nx ny nsN probs g (uSeq draw nx ny nsN pop probs g m) m x y := rfl
      omega

/-- C6: in stochastic mode, for every draw function, input, cell, and
source class, the `rmultinom_trans` allocations summed over all target
slices never exceed the (non-negative) source population at that cell:
each capped draw is subtracted from the unallocated pool, which stays
non-negative, so the total allocated is the initial pool minus the final
one. -/
theorem c6_stochastic_conservation (draw : Draw) (nx ny nsN : ℕ) (pop : GMat)
    (probs : GCube) (g : ℕ) (x y : ℕ) (h : 0 ≤ pop x y) :
    (∑ t ∈ Finset.range nsN, ((rmultinom_trans draw nx ny nsN pop probs g x y t : ℤ) : ℚ))
      ≤ pop x y := by
  have hsum : (∑ t ∈ Finset.range nsN, rmultinom_trans draw nx ny nsN pop probs g x y t)
      = uSeq draw nx ny nsN pop probs g 0 x y - uSeq draw nx ny nsN pop probs g nsN x y := by
    rw [← uSeq_partial_sum draw nx ny nsN pop probs g x y nsN]
    refine Finset.sum_congr rfl (fun t ht => ?_)
    simp [rmultinom_trans, Finset.mem_range.1 ht]
  have hZ : (∑ t ∈ Finset.range nsN, rmultinom_trans draw nx ny nsN pop probs g x y t)
      ≤ truncQ (pop x y) := by
    rw [hsum]
    have h0 := uSeq_nonneg draw nx ny nsN pop probs g x y h nsN
    have hu0 : uSeq draw nx ny nsN pop probs g 0 x y = truncQ (pop x y) := rfl
    omega
  calc (∑ t ∈ Finset.range nsN, ((rmultinom_trans draw nx ny nsN pop probs g x y t : ℤ) : ℚ))
      = ((∑ t ∈ Finset.range nsN, rmultinom_trans draw nx ny nsN pop probs g x y t : ℤ) : ℚ) := by
        push_cast
        rfl
    _ ≤ ((truncQ (pop x y) : ℤ) : ℚ) := by exact_mod_cast hZ
    _ ≤ pop x y := truncQ_le h

/-- C6 witness: the conservation theorem applied at a concrete input. -/
theorem c6_stochastic_conservation_witness :
    (∑ t ∈ Finset.range 1,
        ((rmultinom_trans drawZero 1 1 1 (fun _ _ => 1) zeroCube 1 0 0 t : ℤ) : ℚ)) ≤ 1 :=
  c6_stochastic_conservation drawZero 1 1 1 (fun _ _ => 1) zeroCube 1 0 0 (by norm_num)

/-- C7: in deterministic mode the output slice is exactly the
expected-value allocation `N.slice(s) % p.slice(t)` summed over sources,
and for each cell and source class the allocated mass plus the implicit
mortality fraction (one minus the per-cell sum of renormalized target
probabilities) times the source population equals the source population
exactly. -/
theorem c7_deterministic_conservation (draw : Draw) (nx ny nsN ne aR aC : ℕ)
    (N E : GCube) (alpha : GMat) (beta gamma : GCube) (seed : ℤ) (x y s t : ℕ) :
    (transition draw nx ny nsN ne aR aC N E alpha beta gamma false seed x y t =
      if t < aR then
        ∑ q ∈ Finset.range aC, N x y q * probField nsN ne aR N E alpha beta gamma q x y t
      else 0) ∧
    (∑ u ∈ Finset.range nsN, N x y s * probField nsN ne aR N E alpha beta gamma s x y u) +
      (1 - ∑ u ∈ Finset.range nsN, probField nsN ne aR N E alpha beta gamma s x y u) *
        N x y s = N x y s := by
  constructor
  · rfl
  · rw [← Finset.mul_sum]
    ring

/-- C8: after clamping and joint renormalization, every per-target
probability lies in `[0, 1]`, the per-cell sum over all target slices is
at most 1, and where the raw clamped sum exceeds 1 the field is exactly
the clamped value divided by that sum (a proportional shrink, never an
upscale). -/
theorem c8_probability_bounds (nsN ne aR : ℕ) (N E : GCube) (alpha : GMat)
    (beta gamma : GCube) (s x y t : ℕ) :
    0 ≤ probField nsN ne aR N E alpha beta gamma s x y t ∧
    probField nsN ne aR N E alpha beta gamma s x y t ≤ 1 ∧
    (∑ u ∈ Finset.range nsN, probField nsN ne aR N E alpha beta gamma s x y u) ≤ 1 ∧
    (1 < probSum nsN ne aR N E alpha beta gamma s x y →
      probField nsN ne aR N E alpha beta gamma s x y t =
        probClamped nsN ne aR N E alpha beta gamma s x y t /
          probSum nsN ne aR N E alpha beta gamma s x y) := by
  have hC0 : ∀ u, 0 ≤ probClamped nsN ne aR N E alpha beta gamma s x y u :=
    fun u => le_min zero_le_one (le_max_left 0 _)
  have hC1 : ∀ u, probClamped nsN ne aR N E alpha beta gamma s x y u ≤ 1 :=
    fun u => min_le_left _ _
  by_cases hP : 1 < probSum nsN ne aR N E alpha beta gamma s x y
  · have hPpos : 0 < probSum nsN ne aR N E alpha beta gamma s x y :=
      lt_trans one_pos hP
    have hfield : ∀ u, probField nsN ne aR N E alpha beta gamma s x y u =
        probClamped nsN ne aR N E alpha beta gamma s x y u /
          probSum nsN ne aR N E alpha beta gamma s x y :=
      fun u => if_pos hP
    refine ⟨?_, ?_, ?_, fun _ => hfield t⟩
    · rw [hfield]
      exact div_nonneg (hC0 t) hPpos.le
    · rw [hfield]
      exact (div_le_one hPpos).2 (le_trans (hC1 t) hP.le)
    · have : (∑ u ∈ Finset.range nsN, probField nsN ne aR N E alpha beta gamma s x y u)
          = 1 := by
        rw [Finset.sum_congr rfl (fun u _ => hfield u), ← Finset.sum_div]
        exact div_self (ne_of_gt hPpos)
      rw [this]
  · have hfield : ∀ u, probField nsN ne aR N E alpha beta gamma s x y u =
        probClamped nsN ne aR N E alpha beta gamma s x y u :=
      fun u => if_neg hP
    refine ⟨?_, ?_, ?_, fun hcontra => absurd hcontra hP⟩
    · rw [hfield]; exact hC0 t
    · rw [hfield]; exact hC1 t
    · rw [Finset.sum_congr rfl (fun u _ => hfield u)]
      exact not_lt.1 hP

/-- Intercepts whose clamped per-cell sum is `17/10 > 1`, used to witness
the renormalization branch. -/
def alpha8 : GMat := fun t s => if s = 0 then (if t = 0 then 4/5 else 9/10) else 0

/-- C8 witness: the bounds theorem applied at a concrete input whose raw
clamped sum exceeds 1, with the renormalization hypothesis discharged. -/
theorem c8_probability_bounds_witness :
    0 ≤ probField 2 1 2 zeroCube zeroCube alpha8 zeroCube zeroCube 0 0 0 0 ∧
    probField 2 1 2 zeroCube zeroCube alpha8 zeroCube zeroCube 0 0 0 0 ≤ 1 ∧
    (∑ u ∈ Finset.range 2, probField 2 1 2 zeroCube zeroCube alpha8 zeroCube zeroCube 0 0 0 u)
      ≤ 1 ∧
    probField 2 1 2 zeroCube zeroCube alpha8 zeroCube zeroCube 0 0 0 0 =
      probClamped 2 1 2 zeroCube zeroCube alpha8 zeroCube zeroCube 0 0 0 0 /
        probSum 2 1 2 zeroCube zeroCube alpha8 zeroCube zeroCube 0 0 0 := by
  have h := c8_probability_bounds 2 1 2 zeroCube zeroCube alpha8 zeroCube zeroCube 0 0 0 0
  exact ⟨h.1, h.2.1, h.2.2.1, h.2.2.2 (by
    norm_num [probSum, probClamped, probRaw, alpha8, zeroCube, Finset.sum_range_succ])⟩

/-! ### Sequential dispersal allocation -/

lemma sum_ite_point {M : Type} [AddCommGroup M] (n b : ℕ) (hb : b < n) (v : M)
    (f : ℕ → M) :
    (∑ y ∈ Finset.range n, if y = b then v else f y)
      = (∑ y ∈ Finset.range n, f y) + v - f b := by
  have h1 : ∀ y, (if y = b then v else f y) = f y + (if y = b then v - f y else 0) := by
    intro y
    by_cases hy : y = b <;> simp [hy]
  rw [Finset.sum_congr rfl (fun y _ => h1 y), Finset.sum_add_distrib, Finset.sum_ite_eq']
  rw [if_pos (Finset.mem_range.2 hb)]
  abel

lemma sumGridZ_update (kr kc a b : ℕ) (ha : a < kr) (hb : b < kc) (v : ℤ) (M : GMatZ) :
    sumGridZ kr kc (fun x y => if x = a ∧ y = b then v else M x y)
      = sumGridZ kr kc M + v - M a b := by
  unfold sumGridZ
  have hrow : ∀ x, (∑ y ∈ Finset.range kc, if x = a ∧ y = b then v else M x y)
      = (∑ y ∈ Finset.range kc, M x y) + (if x = a then v - M a b else 0) := by
    intro x
    by_cases hx : x = a
    · subst hx
      simp only [true_and, if_pos rfl]
      rw [sum_ite_point kc b hb v (M x)]
      simp [add_sub_assoc]
    · simp [hx]
  rw [Finset.sum_congr rfl (fun x _ => hrow x), Finset.sum_add_distrib, Finset.sum_ite_eq']
  rw [if_pos (Finset.mem_range.2 ha)]
  abel

lemma sumGrid_eq_single (kr kc a b : ℕ) (ha : a < kr) (hb : b < kc) (M : GMat)
    (h : ∀ x y, x < kr → y < kc → ¬(x = a ∧ y = b) → M x y = 0) :
    sumGrid kr kc M = M a b := by
  unfold sumGrid
  rw [Finset.sum_eq_single a
    (fun x hx hxa => Finset.sum_eq_zero (fun y hy =>
      h x y (Finset.mem_range.1 hx) (Finset.mem_range.1 hy) (fun hc => hxa hc.1)))
    (fun hmem => absurd (Finset.mem_range.2 ha) hmem)]
  exact Finset.sum_eq_single b
    (fun y hy hyb => h a y ha (Finset.mem_range.1 hy) (fun hc => hyb hc.2))
    (fun hmem => absurd (Finset.mem_range.2 hb) hmem)

/-- The sequential allocation loop of `rmultinom_disp` distributes exactly
the whole unallocated pool, provided the visit order covers every
positive-weight cell exactly once and the draw is exact at probability
one: by the time the pool could outlast the list, the last positive-weight
cell has been visited with conditioned probability 1 and drained it. -/
lemma rmultinomDispGo_sum (draw : Draw) (kr kc g : ℕ)
    (hdraw : ∀ (n : ℤ) (q : ℕ), 0 ≤ n → ((draw n 1 q).1 : ℤ) = n) :
    ∀ (l : List (ℕ × ℕ)) (probs : GMat) (u : ℤ) (acc : GMatZ),
      0 ≤ u →
      l.Nodup →
      (∀ c ∈ l, c.1 < kr ∧ c.2 < kc) →
      (∀ c ∈ l, acc c.1 c.2 = 0) →
      (∀ x y, x < kr → y < kc → 0 ≤ probs x y) →
      (∀ x y, x < kr → y < kc → 0 < probs x y → (x, y) ∈ l) →
      (0 < u → ∃ x y, x < kr ∧ y < kc ∧ 0 < probs x y) →
      sumGridZ kr kc (rmultinomDispGo draw kr kc g l probs u acc) =
        sumGridZ kr kc acc + u := by
  intro l
  induction l with
  | nil =>
      intro probs u acc hu _ _ _ _ hmem hpos
      have hu0 : u = 0 := by
        rcases lt_or_eq_of_le hu with h | h
        · obtain ⟨x, y, hx, hy, hp⟩ := hpos h
          exact absurd (hmem x y hx hy hp) (List.not_mem_nil (x, y))
        · omega
      simp [rmultinomDispGo, hu0]
  | cons ii rest ih =>
      intro probs u acc hu hnd hgrid hacc hprobs0 hmem hpos
      obtain ⟨hii_not, hnd'⟩ := List.nodup_cons.1 hnd
      have hiiG : ii.1 < kr ∧ ii.2 < kc := hgrid ii (List.mem_cons_self ii rest)
      have hacc_ii : acc ii.1 ii.2 = 0 := hacc ii (List.mem_cons_self ii rest)
      simp only [rmultinomDispGo]
      set P := sumGrid kr kc probs with hP
      set v := min (rbinom_disp draw u (probs ii.1 ii.2 / P) g) u with hv
      have hvle : v ≤ u := min_le_right _ _
      have hupdate := sumGridZ_update kr kc ii.1 ii.2 hiiG.1 hiiG.2 v acc
      by_cases hbreak : u - v = 0
      · rw [if_pos hbreak]
        have : v = u := by omega
        rw [hupdate, hacc_ii, this]
        ring
      · rw [if_neg hbreak]
        have hv0 : 0 ≤ v := by
          rcases lt_or_eq_of_le hu with h | h
          · exact le_min (Int.natCast_nonneg _) h.le
          · exfalso
            apply hbreak
            have hvle2 : v ≤ u := hvle
            have : v = min (rbinom_disp draw u (probs ii.1 ii.2 / P) g) u := hv
            rw [← h] at this ⊢
            have h0 : min (rbinom_disp draw (0 : ℤ) (probs ii.1 ii.2 / P) g) (0 : ℤ) = 0 :=
              min_eq_right (Int.natCast_nonneg _)
            omega
        have hu' : 0 < u - v := by omega
        have hupos : 0 < u := by omega
        have hkey : ∃ x y, x < kr ∧ y < kc ∧
            0 < (fun x y => if x = ii.1 ∧ y = ii.2 then 0 else probs x y) x y := by
          by_contra hno
          push_neg at hno
          have honly : ∀ x y, x < kr → y < kc → ¬(x = ii.1 ∧ y = ii.2) → probs x y = 0 := by
            intro x y hx hy hne
            have := hno x y hx hy
            simp only [if_neg hne] at this
            exact le_antisymm this (hprobs0 x y hx hy)
          obtain ⟨px, py, hpx, hpy, hpp⟩ := hpos hupos
          have hpii : probs ii.1 ii.2 > 0 := by
            by_cases hc : px = ii.1 ∧ py = ii.2
            · rwa [hc.1, hc.2] at hpp
            · exact absurd (honly px py hpx hpy hc) (ne_of_gt hpp)
          have hPii : P = probs ii.1 ii.2 :=
            sumGrid_eq_single kr kc ii.1 ii.2 hiiG.1 hiiG.2 probs honly
          have hone : probs ii.1 ii.2 / P = 1 := by
            rw [hPii]
            exact div_self (ne_of_gt hpii)
          apply hbreak
          have : v = u := by
            rw [hv, hone]
            unfold rbinom_disp
            rw [hdraw u g hu]
            exact min_self u
          omega
        rw [ih _ (u - v) _ hu'.le hnd'
          (fun c hc => hgrid c (List.mem_cons_of_mem ii hc))
          (fun c hc => by
            have hcne : ¬(c.1 = ii.1 ∧ c.2 = ii.2) := by
              intro hc2
              apply hii_not
              have : c = ii := Prod.ext hc2.1 hc2.2
              rwa [← this]
            simp only [if_neg hcne]
            exact hacc c (List.mem_cons_of_mem ii hc))
          (fun x y hx hy => by
            by_cases hc : x = ii.1 ∧ y = ii.2
            · simp [hc]
            · simp only [if_neg hc]
              exact hprobs0 x y hx hy)
          (fun x y hx hy hp => by
            by_cases hc : x = ii.1 ∧ y = ii.2
            · simp [hc] at hp
            · simp only [if_neg hc] at hp
              have := hmem x y hx hy hp
              rcases List.mem_cons.1 this with h | h
              · exact absurd ⟨by rw [← h], by rw [← h]⟩ hc
              · exact h)
          (fun _ => hkey)]
        rw [hupdate, hacc_ii]
        ring

lemma cellsColMajor_mem_iff {nx ny : ℕ} {c : ℕ × ℕ} :
    c ∈ cellsColMajor nx ny ↔ c.1 < nx ∧ c.2 < ny := by
  unfold cellsColMajor
  constructor
  · intro h
    rw [List.mem_flatMap] at h
    obtain ⟨b, hb, hc⟩ := h
    rw [List.mem_map] at hc
    obtain ⟨a, ha, rfl⟩ := hc
    exact ⟨List.mem_range.1 ha, List.mem_range.1 hb⟩
  · intro ⟨h1, h2⟩
    rw [List.mem_flatMap]
    refine ⟨c.2, List.mem_range.2 h2, ?_⟩
    rw [List.mem_map]
    exact ⟨c.1, List.mem_range.2 h1, rfl⟩

lemma cellsColMajor_nodup (nx ny : ℕ) : (cellsColMajor nx ny).Nodup := by
  unfold cellsColMajor
  rw [List.nodup_flatMap]
  constructor
  · intro b _
    exact (List.nodup_range nx).map (fun a a2 h => congrArg Prod.fst h)
  · refine List.Pairwise.imp ?_ (List.nodup_range ny)
    intro b1 b2 hne
    intro c hc1 hc2
    rw [List.mem_map] at hc1 hc2
    obtain ⟨a1, _, rfl⟩ := hc1
    obtain ⟨a2, _, h2⟩ := hc2
    exact hne (congrArg Prod.snd h2).symm

lemma insertDesc_perm (K : GMat) (c : ℕ × ℕ) :
    ∀ l : List (ℕ × ℕ), (insertDesc K c l).Perm (c :: l) := by
  intro l
  induction l with
  | nil => exact List.Perm.refl _
  | cons d rest ih =>
      simp only [insertDesc]
      split
      · exact List.Perm.refl _
      · exact (ih.cons d).trans (List.Perm.swap c d rest)

lemma sortIndexDesc_perm (kr kc : ℕ) (K : GMat) :
    (sortIndexDesc kr kc K).Perm (cellsColMajor kr kc) := by
  unfold sortIndexDesc
  induction cellsColMajor kr kc with
  | nil => exact List.Perm.refl _
  | cons c rest ih =>
      simp only [List.foldr_cons]
      exact (insertDesc_perm K c _).trans (ih.cons c)

/-- C10: `disperse` hands `rmultinom_disp` the seed count truncated to an
integer together with the visit order `sort_index(N, "descent")`, and for
a kernel with non-negative weights and at least one of them positive, the
sequential allocation distributes exactly the whole truncated count (the
last positive-weight cell visited is drawn with conditioned probability 1,
for any draw that is exact at probability one) even when the kernel
weights sum to less than 1 — whereas in deterministic mode the window
written by a cell totals `S(a,b)` times the kernel weight sum. -/
theorem c10_full_allocation (draw : Draw) (kr kc : ℕ) (sv : ℚ) (S K : GMat)
    (g a b : ℕ)
    (hdraw : ∀ (n : ℤ) (q : ℕ), 0 ≤ n → ((draw n 1 q).1 : ℤ) = n)
    (hsv : 0 ≤ sv)
    (hK0 : ∀ x y, x < kr → y < kc → 0 ≤ K x y)
    (hKpos : ∃ x y, x < kr ∧ y < kc ∧ 0 < K x y) :
    sumGridZ kr kc
        (rmultinom_disp draw kr kc (truncQ sv) K (sortIndexDesc kr kc K) g)
      = truncQ sv ∧
    sumGrid kr kc (detWindow S K a b) = S a b * sumGrid kr kc K := by
  have hperm := sortIndexDesc_perm kr kc K
  constructor
  · unfold rmultinom_disp
    rw [rmultinomDispGo_sum draw kr kc g hdraw (sortIndexDesc kr kc K) K (truncQ sv)
      (fun _ _ => 0) (truncQ_nonneg hsv)
      (hperm.nodup_iff.2 (cellsColMajor_nodup kr kc))
      (fun c hc => cellsColMajor_mem_iff.1 (hperm.subset hc))
      (fun _ _ => rfl) hK0
      (fun x y hx hy hp => hperm.mem_iff.2 (cellsColMajor_mem_iff.2 ⟨hx, hy⟩))
      (fun _ => hKpos)]
    simp [sumGridZ]
  · simp only [detWindow, sumGrid, Finset.mul_sum]

/-- C10 witness: the allocation theorem applied to a 1×1 kernel of weight
1, seed count `5/2` (truncated to 2), and a draw exact at probability
one. -/
theorem c10_full_allocation_witness :
    sumGridZ 1 1 (rmultinom_disp drawTop 1 1 (truncQ (5/2)) (fun _ _ => 1)
        (sortIndexDesc 1 1 (fun _ _ => 1)) 1)
      = truncQ (5/2) ∧
    sumGrid 1 1 (detWindow (fun _ _ => 3) (fun _ _ => 1) 0 0) =
      3 * sumGrid 1 1 (fun _ _ => 1) := by
  refine c10_full_allocation drawTop 1 1 (5/2) (fun _ _ => 3) (fun _ _ => 1) 1 0 0
    ?_ (by norm_num) ?_ ?_
  · intro n q hn
    simp only [drawTop, if_pos rfl]
    exact Int.toNat_of_nonneg hn
  · intro x y _ _
    norm_num
  · exact ⟨0, 0, by norm_num⟩

/-! ### Dispersal mass accounting -/

lemma list_range_map_sum (n : ℕ) (f : ℕ → ℚ) :
    ((List.range n).map f).sum = ∑ i ∈ Finset.range n, f i := by
  induction n with
  | zero => simp
  | succ n ih => rw [List.range_succ, List.map_append, List.sum_append, Finset.sum_range_succ, ih]; simp

lemma cellsRowMajor_succ (nr nc : ℕ) :
    cellsRowMajor (nr + 1) nc
      = cellsRowMajor nr nc ++ (List.range nc).map (fun b => (nr, b)) := by
  unfold cellsRowMajor
  rw [List.range_succ, List.flatMap_append]
  simp

lemma cellsRowMajor_map_sum (nr nc : ℕ) (f : ℕ × ℕ → ℚ) :
    ((cellsRowMajor nr nc).map f).sum
      = ∑ a ∈ Finset.range nr, ∑ b ∈ Finset.range nc, f (a, b) := by
  induction nr with
  | zero => simp [cellsRowMajor]
  | succ nr ih =>
      rw [cellsRowMajor_succ, List.map_append, List.sum_append, Finset.sum_range_succ, ih,
        List.map_map]
      congr 1

lemma cellsRowMajor_mem {nr nc : ℕ} {ab : ℕ × ℕ} (h : ab ∈ cellsRowMajor nr nc) :
    ab.1 < nr ∧ ab.2 < nc := by
  unfold cellsRowMajor at h
  rw [List.mem_flatMap] at h
  obtain ⟨a, ha, hab⟩ := h
  rw [List.mem_map] at hab
  obtain ⟨b, hb, rfl⟩ := hab
  exact ⟨List.mem_range.1 ha, List.mem_range.1 hb⟩

lemma sum_range_window (C b w : ℕ) (hb : b + w < C) (f : ℕ → ℚ) :
    (∑ y ∈ Finset.range C, if b ≤ y ∧ y ≤ b + w then f (y - b) else 0)
      = ∑ j ∈ Finset.range (w + 1), f j := by
  rw [← Finset.sum_filter]
  have hset : (Finset.range C).filter (fun y => b ≤ y ∧ y ≤ b + w)
      = Finset.Icc b (b + w) := by
    ext z
    simp only [Finset.mem_filter, Finset.mem_range, Finset.mem_Icc]
    omega
  rw [hset, ← Nat.Ico_succ_right, Finset.sum_Ico_eq_sum_range]
  rw [show b + w + 1 - b = w + 1 from by omega]
  exact Finset.sum_congr rfl (fun i _ => by rw [show b + i - b = i from by omega])

lemma sumGrid_spreadStep_det (draw : Draw) (kr kc r : ℕ) (S K : GMat)
    (Ni : List (ℕ × ℕ)) (g : ℕ) (R C : ℕ) (T : GMat) (ab : ℕ × ℕ)
    (ha : ab.1 + 2 * r < R) (hb : ab.2 + 2 * r < C) :
    sumGrid R C (spreadStep draw kr kc r S K Ni false g T ab)
      = sumGrid R C T + S ab.1 ab.2 * sumGrid (2 * r + 1) (2 * r + 1) K := by
  obtain ⟨a, b⟩ := ab
  simp only at ha hb
  have hstep : ∀ x y, spreadStep draw kr kc r S K Ni false g T (a, b) x y
      = T x y + (if a ≤ x ∧ x ≤ a + 2 * r ∧ b ≤ y ∧ y ≤ b + 2 * r then
          S a b * K (x - a) (y - b) else 0) := by
    intro x y
    simp only [spreadStep, detWindow, Bool.false_eq_true, if_false]
    by_cases hc : a ≤ x ∧ x ≤ a + 2 * r ∧ b ≤ y ∧ y ≤ b + 2 * r
    · rw [if_pos hc, if_pos hc]
    · rw [if_neg hc, if_neg hc, add_zero]
  unfold sumGrid
  rw [Finset.sum_congr rfl (fun x _ => Finset.sum_congr rfl (fun y _ => hstep x y))]
  simp only [Finset.sum_add_distrib]
  congr 1
  have hinner : ∀ x, (∑ y ∈ Finset.range C,
        if a ≤ x ∧ x ≤ a + 2 * r ∧ b ≤ y ∧ y ≤ b + 2 * r then
          S a b * K (x - a) (y - b) else 0)
      = (if a ≤ x ∧ x ≤ a + 2 * r then
          ∑ j ∈ Finset.range (2 * r + 1), S a b * K (x - a) j else 0) := by
    intro x
    by_cases hx : a ≤ x ∧ x ≤ a + 2 * r
    · rw [if_pos hx, ← sum_range_window C b (2 * r) hb (fun j => S a b * K (x - a) j)]
      refine Finset.sum_congr rfl (fun y _ => ?_)
      by_cases hy : b ≤ y ∧ y ≤ b + 2 * r
      · rw [if_pos ⟨hx.1, hx.2, hy.1, hy.2⟩, if_pos hy]
      · rw [if_neg (fun hc => hy ⟨hc.2.2.1, hc.2.2.2⟩), if_neg hy]
    · rw [if_neg hx]
      refine Finset.sum_eq_zero (fun y _ => if_neg (fun hc => hx ⟨hc.1, hc.2.1⟩))
  rw [Finset.sum_congr rfl (fun x _ => hinner x)]
  rw [sum_range_window R a (2 * r) ha (fun i => ∑ j ∈ Finset.range (2 * r + 1), S a b * K i j)]
  rw [Finset.mul_sum]
  exact Finset.sum_congr rfl (fun i _ => by rw [Finset.mul_sum])

lemma sumGrid_spread_foldl (draw : Draw) (kr kc r : ℕ) (S K : GMat)
    (Ni : List (ℕ × ℕ)) (g : ℕ) (R C : ℕ) :
    ∀ (l : List (ℕ × ℕ)) (T : GMat),
      (∀ ab ∈ l, ab.1 + 2 * r < R ∧ ab.2 + 2 * r < C) →
      sumGrid R C (l.foldl (spreadStep draw kr kc r S K Ni false g) T)
        = sumGrid R C T +
          (l.map (fun ab => S ab.1 ab.2 * sumGrid (2 * r + 1) (2 * r + 1) K)).sum := by
  intro l
  induction l with
  | nil => intro T _; simp
  | cons ab rest ih =>
      intro T h
      rw [List.foldl_cons, ih _ (fun c hc => h c (List.mem_cons_of_mem ab hc)),
        sumGrid_spreadStep_det draw kr kc r S K Ni g R C T ab
          (h ab (List.mem_cons_self ab rest)).1 (h ab (List.mem_cons_self ab rest)).2]
      simp only [List.map_cons, List.sum_cons]
      ring

/-- Sum of a matrix over the box `[x1, x2] × [y1, y2]`. -/
def boxSum (x1 x2 y1 y2 : ℕ) (T : GMat) : ℚ :=
  ∑ x ∈ Finset.Icc x1 x2, ∑ y ∈ Finset.Icc y1 y2, T x y

lemma boxSum_rowAdd (x1 x2 y1 y2 tgt src : ℕ) (T : GMat)
    (h : tgt ∈ Finset.Icc x1 x2) :
    boxSum x1 x2 y1 y2 (rowAdd tgt src T)
      = boxSum x1 x2 y1 y2 T + ∑ y ∈ Finset.Icc y1 y2, T src y := by
  unfold boxSum rowAdd
  have hrow : ∀ x, (∑ y ∈ Finset.Icc y1 y2, if x = tgt then T x y + T src y else T x y)
      = (∑ y ∈ Finset.Icc y1 y2, T x y) +
          (if x = tgt then ∑ y ∈ Finset.Icc y1 y2, T src y else 0) := by
    intro x
    by_cases hx : x = tgt
    · simp [hx, Finset.sum_add_distrib]
    · simp [hx]
  rw [Finset.sum_congr rfl (fun x _ => hrow x), Finset.sum_add_distrib,
    Finset.sum_ite_eq', if_pos h]

lemma boxSum_colAdd (x1 x2 y1 y2 tgt src : ℕ) (T : GMat)
    (h : tgt ∈ Finset.Icc y1 y2) :
    boxSum x1 x2 y1 y2 (colAdd tgt src T)
      = boxSum x1 x2 y1 y2 T + ∑ x ∈ Finset.Icc x1 x2, T x src := by
  unfold boxSum colAdd
  have hcol : ∀ x, (∑ y ∈ Finset.Icc y1 y2, if y = tgt then T x y + T x src else T x y)
      = (∑ y ∈ Finset.Icc y1 y2, T x y) + T x src := by
    intro x
    have h1 : ∀ y, (if y = tgt then T x y + T x src else T x y)
        = T x y + (if y = tgt then T x src else 0) := by
      intro y
      by_cases hy : y = tgt <;> simp [hy]
    rw [Finset.sum_congr rfl (fun y _ => h1 y), Finset.sum_add_distrib,
      Finset.sum_ite_eq', if_pos h]
  rw [Finset.sum_congr rfl (fun x _ => hcol x), Finset.sum_add_distrib]

/-- The two row folds of one reflect iteration (top fold then bottom
fold). -/
def rowPair (R r i : ℕ) (T : GMat) : GMat :=
  rowAdd (R - (2 * r - 1 - i) - 1) (R - 1 - i) (rowAdd (2 * r - 1 - i) i T)

/-- The two column folds of one reflect iteration (left fold then right
fold). -/
def colPair (C r i : ℕ) (T : GMat) : GMat :=
  colAdd (C - (2 * r - 1 - i) - 1) (C - 1 - i) (colAdd (2 * r - 1 - i) i T)

/-- All row folds of the reflect loop from iteration `i`, `fuel`
iterations remaining. -/
def rowFrom (R r : ℕ) : ℕ → ℕ → GMat → GMat
  | _, 0, T => T
  | i, fuel + 1, T => rowFrom R r (i + 1) fuel (rowPair R r i T)

/-- All column folds of the reflect loop from iteration `i`. -/
def colFrom (C r : ℕ) : ℕ → ℕ → GMat → GMat
  | _, 0, T => T
  | i, fuel + 1, T => colFrom C r (i + 1) fuel (colPair C r i T)

lemma rowAdd_colAdd_comm (rt rs ct cs : ℕ) (T : GMat) :
    colAdd ct cs (rowAdd rt rs T) = rowAdd rt rs (colAdd ct cs T) := by
  funext x y
  unfold rowAdd colAdd
  by_cases hx : x = rt <;> by_cases hy : y = ct <;> simp [hx, hy] <;> ring

lemma reflectStep_eq (R C r i : ℕ) (T : GMat) :
    reflectStep R C r i T = colPair C r i (rowPair R r i T) := by
  unfold reflectStep rowPair colPair
  rw [← rowAdd_colAdd_comm]

lemma rowFrom_colAdd (R r ct cs : ℕ) :
    ∀ (fuel i : ℕ) (T : GMat),
      rowFrom R r i fuel (colAdd ct cs T) = colAdd ct cs (rowFrom R r i fuel T) := by
  intro fuel
  induction fuel with
  | zero => intro i T; rfl
  | succ fuel ih =>
      intro i T
      simp only [rowFrom]
      have h : rowPair R r i (colAdd ct cs T) = colAdd ct cs (rowPair R r i T) := by
        unfold rowPair
        rw [← rowAdd_colAdd_comm, ← rowAdd_colAdd_comm]
      rw [h, ih]

lemma reflectFrom_separate (R C r : ℕ) :
    ∀ (fuel i : ℕ) (T : GMat),
      reflectFrom R C r i fuel T = colFrom C r i fuel (rowFrom R r i fuel T) := by
  intro fuel
  induction fuel with
  | zero => intro i T; rfl
  | succ fuel ih =>
      intro i T
      simp only [reflectFrom, rowFrom, colFrom]
      rw [reflectStep_eq, ih]
      unfold colPair
      rw [rowFrom_colAdd, rowFrom_colAdd]

lemma sum_Icc_split (a b : ℕ) (h : a < b) (f : ℕ → ℚ) :
    (∑ x ∈ Finset.Icc a b, f x)
      = f a + (∑ x ∈ Finset.Icc (a + 1) (b - 1), f x) + f b := by
  have h1 : Finset.Icc a b = insert a (insert b (Finset.Icc (a + 1) (b - 1))) := by
    ext z
    simp only [Finset.mem_Icc, Finset.mem_insert]
    omega
  have ha : a ∉ insert b (Finset.Icc (a + 1) (b - 1)) := by
    simp only [Finset.mem_insert, Finset.mem_Icc]
    omega
  have hb2 : b ∉ Finset.Icc (a + 1) (b - 1) := by
    simp only [Finset.mem_Icc]
    omega
  rw [h1, Finset.sum_insert ha, Finset.sum_insert hb2]
  ring

lemma rowFrom_band (nr r : ℕ) (hnr : 1 ≤ nr) (y1 y2 : ℕ) :
    ∀ (fuel i : ℕ), i + fuel = r → ∀ T : GMat,
      boxSum r (nr + r - 1) y1 y2 (rowFrom (nr + 2 * r) r i fuel T)
        = boxSum i (nr + 2 * r - 1 - i) y1 y2 T := by
  intro fuel
  induction fuel with
  | zero =>
      intro i hi T
      have hir : i = r := by omega
      simp only [rowFrom]
      rw [hir, show nr + 2 * r - 1 - r = nr + r - 1 from by omega]
  | succ fuel ih =>
      intro i hi T
      have hir : i < r := by omega
      simp only [rowFrom]
      rw [ih (i + 1) (by omega) (rowPair (nr + 2 * r) r i T)]
      rw [show nr + 2 * r - 1 - (i + 1) = nr + 2 * r - 2 - i from by omega]
      have hpair : rowPair (nr + 2 * r) r i T
          = rowAdd (nr + i) (nr + 2 * r - 1 - i) (rowAdd (2 * r - 1 - i) i T) := by
        unfold rowPair
        rw [show nr + 2 * r - (2 * r - 1 - i) - 1 = nr + i from by omega]
      rw [hpair]
      rw [boxSum_rowAdd (i + 1) (nr + 2 * r - 2 - i) y1 y2 (nr + i) (nr + 2 * r - 1 - i) _
        (Finset.mem_Icc.2 (by omega))]
      rw [boxSum_rowAdd (i + 1) (nr + 2 * r - 2 - i) y1 y2 (2 * r - 1 - i) i T
        (Finset.mem_Icc.2 (by omega))]
      have hsrc : ∀ y, rowAdd (2 * r - 1 - i) i T (nr + 2 * r - 1 - i) y
          = T (nr + 2 * r - 1 - i) y :=
        fun y => if_neg (by omega)
      rw [Finset.sum_congr rfl (fun y _ => hsrc y)]
      unfold boxSum
      rw [sum_Icc_split i (nr + 2 * r - 1 - i) (by omega)
        (fun x => ∑ y ∈ Finset.Icc y1 y2, T x y)]
      rw [show nr + 2 * r - 1 - i - 1 = nr + 2 * r - 2 - i from by omega]
      ring

lemma colFrom_band (nc r : ℕ) (hnc : 1 ≤ nc) (x1 x2 : ℕ) :
    ∀ (fuel i : ℕ), i + fuel = r → ∀ T : GMat,
      boxSum x1 x2 r (nc + r - 1) (colFrom (nc + 2 * r) r i fuel T)
        = boxSum x1 x2 i (nc + 2 * r - 1 - i) T := by
  intro fuel
  induction fuel with
  | zero =>
      intro i hi T
      have hir : i = r := by omega
      simp only [colFrom]
      rw [hir, show nc + 2 * r - 1 - r = nc + r - 1 from by omega]
  | succ fuel ih =>
      intro i hi T
      have hir : i < r := by omega
      simp only [colFrom]
      rw [ih (i + 1) (by omega) (colPair (nc + 2 * r) r i T)]
      rw [show nc + 2 * r - 1 - (i + 1) = nc + 2 * r - 2 - i from by omega]
      have hpair : colPair (nc + 2 * r) r i T
          = colAdd (nc + i) (nc + 2 * r - 1 - i) (colAdd (2 * r - 1 - i) i T) := by
        unfold colPair
        rw [show nc + 2 * r - (2 * r - 1 - i) - 1 = nc + i from by omega]
      rw [hpair]
      rw [boxSum_colAdd x1 x2 (i + 1) (nc + 2 * r - 2 - i) (nc + i) (nc + 2 * r - 1 - i) _
        (Finset.mem_Icc.2 (by omega))]
      rw [boxSum_colAdd x1 x2 (i + 1) (nc + 2 * r - 2 - i) (2 * r - 1 - i) i T
        (Finset.mem_Icc.2 (by omega))]
      have hsrc : ∀ x, colAdd (2 * r - 1 - i) i T x (nc + 2 * r - 1 - i)
          = T x (nc + 2 * r - 1 - i) :=
        fun x => if_neg (by omega)
      rw [Finset.sum_congr rfl (fun x _ => hsrc x)]
      unfold boxSum
      rw [Finset.sum_congr rfl (fun x _ =>
        sum_Icc_split i (nc + 2 * r - 1 - i) (by omega) (fun y => T x y))]
      rw [Finset.sum_add_distrib, Finset.sum_add_distrib]
      rw [show nc + 2 * r - 1 - i - 1 = nc + 2 * r - 2 - i from by omega]
      ring

lemma sum_range_shift (n r : ℕ) (hn : 1 ≤ n) (f : ℕ → ℚ) :
    (∑ x ∈ Finset.range n, f (x + r)) = ∑ x ∈ Finset.Icc r (n + r - 1), f x := by
  rw [← Nat.Ico_succ_right, Finset.sum_Ico_eq_sum_range]
  rw [show n + r - 1 + 1 - r = n from by omega]
  exact Finset.sum_congr rfl (fun i _ => by rw [add_comm r i])

lemma boxSum_eq_sumGrid (R C : ℕ) (hR : 1 ≤ R) (hC : 1 ≤ C) (T : GMat) :
    boxSum 0 (R - 1) 0 (C - 1) T = sumGrid R C T := by
  unfold boxSum sumGrid
  have h1 : Finset.Icc 0 (R - 1) = Finset.range R := by
    ext z
    simp only [Finset.mem_Icc, Finset.mem_range]
    omega
  have h2 : Finset.Icc 0 (C - 1) = Finset.range C := by
    ext z
    simp only [Finset.mem_Icc, Finset.mem_range]
    omega
  rw [h1, h2]

/-- C5 counterexample: with the 1×1 seed field `[3]` and the 1×1 kernel
`[2]` (square, odd-sided, non-negative weights), reflecting deterministic
dispersal returns total 6, not the input total 3 — conservation fails when
the kernel weights do not sum to 1. -/
theorem c5_conservation_counterexample :
    sumGrid 1 1 (disperse drawZero 1 1 1 1 S5 K5 true false 1) = 6 ∧
    sumGrid 1 1 S5 = 3 ∧
    sumGrid 1 1 (disperse drawZero 1 1 1 1 S5 K5 true false 1) ≠ sumGrid 1 1 S5 := by
  have h1 : sumGrid 1 1 (disperse drawZero 1 1 1 1 S5 K5 true false 1) = 6 := by
    norm_num [disperse, spreadStep, detWindow, reflectFrom, cellsRowMajor, sumGrid, S5, K5,
      Finset.sum_range_succ, List.range_succ]
  have h2 : sumGrid 1 1 S5 = 3 := by
    norm_num [sumGrid, S5, Finset.sum_range_succ]
  exact ⟨h1, h2, by rw [h1, h2]; norm_num⟩

/-- C5 (amended): with reflect enabled and deterministic mode, the output
total of `disperse` equals the input total times the kernel weight total,
for every seed field and every square odd-sided kernel; mass is conserved
exactly when the kernel weights sum to 1.  The reflecting fold loses
nothing: every padded border layer is folded back into the interior
exactly once. -/
theorem c5_mass_scaling (draw : Draw) (nr nc r : ℕ) (S K : GMat) (seed : ℤ) :
    sumGrid nr nc (disperse draw nr nc (2 * r + 1) (2 * r + 1) S K true false seed)
      = sumGrid nr nc S * sumGrid (2 * r + 1) (2 * r + 1) K := by
  by_cases hnr : nr = 0
  · subst hnr
    simp [sumGrid]
  by_cases hnc : nc = 0
  · subst hnc
    simp [sumGrid]
  have hnr1 : 1 ≤ nr := by omega
  have hnc1 : 1 ≤ nc := by omega
  have hrq : (2 * r + 1 - 1) / 2 = r := by omega
  unfold disperse
  simp only [hrq, if_true]
  set g := seedEngine seed with hg
  set Ni := sortIndexDesc (2 * r + 1) (2 * r + 1) K with hNi
  set T1 := (cellsRowMajor nr nc).foldl
    (spreadStep draw (2 * r + 1) (2 * r + 1) r S K Ni false g) (fun _ _ => 0) with hT1
  have hT1sum : sumGrid (nr + 2 * r) (nc + 2 * r) T1
      = sumGrid nr nc S * sumGrid (2 * r + 1) (2 * r + 1) K := by
    rw [hT1, sumGrid_spread_foldl draw (2 * r + 1) (2 * r + 1) r S K Ni g
      (nr + 2 * r) (nc + 2 * r) (cellsRowMajor nr nc) (fun _ _ => 0)
      (fun ab hab => by
        obtain ⟨h1, h2⟩ := cellsRowMajor_mem hab
        omega)]
    have h0 : sumGrid (nr + 2 * r) (nc + 2 * r) (fun _ _ => 0) = 0 := by
      simp [sumGrid]
    rw [h0, zero_add, cellsRowMajor_map_sum]
    unfold sumGrid
    rw [Finset.sum_mul]
    exact Finset.sum_congr rfl (fun a _ => by rw [Finset.sum_mul])
  have hshift : sumGrid nr nc
      (fun x y => reflectFrom (nr + 2 * r) (nc + 2 * r) r 0 r T1 (x + r) (y + r))
      = boxSum r (nr + r - 1) r (nc + r - 1)
          (reflectFrom (nr + 2 * r) (nc + 2 * r) r 0 r T1) := by
    unfold sumGrid boxSum
    calc (∑ x ∈ Finset.range nr, ∑ y ∈ Finset.range nc,
            reflectFrom (nr + 2 * r) (nc + 2 * r) r 0 r T1 (x + r) (y + r))
        = ∑ x ∈ Finset.range nr, ∑ y ∈ Finset.Icc r (nc + r - 1),
            reflectFrom (nr + 2 * r) (nc + 2 * r) r 0 r T1 (x + r) y :=
          Finset.sum_congr rfl (fun x _ => sum_range_shift nc r hnc1 _)
      _ = ∑ x ∈ Finset.Icc r (nr + r - 1), ∑ y ∈ Finset.Icc r (nc + r - 1),
            reflectFrom (nr + 2 * r) (nc + 2 * r) r 0 r T1 x y :=
          sum_range_shift nr r hnr1 (fun x => ∑ y ∈ Finset.Icc r (nc + r - 1),
            reflectFrom (nr + 2 * r) (nc + 2 * r) r 0 r T1 x y)
  rw [hshift, reflectFrom_separate]
  rw [colFrom_band nc r hnc1 r (nr + r - 1) r 0 (by omega)
    (rowFrom (nr + 2 * r) r 0 r T1)]
  rw [rowFrom_band nr r hnr1 0 (nc + 2 * r - 1 - 0) r 0 (by omega) T1]
  rw [show nr + 2 * r - 1 - 0 = nr + 2 * r - 1 from by omega,
    show nc + 2 * r - 1 - 0 = nc + 2 * r - 1 from by omega]
  rw [boxSum_eq_sumGrid (nr + 2 * r) (nc + 2 * r) (by omega) (by omega) T1]
  exact hT1sum

end Stranger
